import Mathlib

/-!
Verification development for the ai-chat-app trading subsystem.

Shallow embedding of the reconciliation/execution core:
`portfolio_manager.py` (the ledger), `kis_connector.py` (broker gateway and
reconciler), `order_executor.py` (guardrail validation), `decision_parser.py`
(buy-quantity resolution) and `telegram_trading_bot.py` (batch execution).

Python floats are modelled as exact rationals (`ℚ`); Python dicts keyed by
symbol are modelled as association lists with insertion-order semantics
(assignment to a fresh key appends, assignment to an existing key updates in
place, deletion removes the entry); network calls are modelled as explicit
inputs (snapshots, price maps, execution oracles).
-/

namespace AIChatApp

/-- One entry of `portfolio['holdings']` as built by
`PortfolioManager.add_position` (`portfolio_manager.py`): keys
`shares`, `avg_price`, `total_cost`, `first_purchase`. -/

structure Holding where
  shares : ℚ
  avg_price : ℚ
  total_cost : ℚ
  first_purchase : String
deriving Repr, DecidableEq

/-- One entry of `portfolio['transactions']`: a `BUY` record
`{type, symbol, shares, price, cost, date}` or a `SELL` record
`{type, symbol, shares, price, proceeds, profit, date}`. -/

inductive Transaction where
  | buy (symbol : String) (shares price cost : ℚ) (date : String)
  | sell (symbol : String) (shares price proceeds profit : ℚ) (date : String)
deriving Repr, DecidableEq

/-- The ledger dict `self.portfolio` of `PortfolioManager`:
`{cash, holdings, transactions, created_at}`. -/

structure Portfolio where
  cash : ℚ
  holdings : List (String × Holding)
  transactions : List Transaction
  created_at : String
deriving Repr, DecidableEq

/-- Python dict read `m.get(s)` / `s in m` on a symbol-keyed dict. -/

def alookup {α : Type} : List (String × α) → String → Option α
  | [], _ => none
  | (k, v) :: rest, s => if k = s then some v else alookup rest s

/-- Python dict assignment `m[s] = a` when `s` is already a key:
the entry is updated in place, insertion order is preserved. -/

def aupdate {α : Type} : List (String × α) → String → α → List (String × α)
  | [], _, _ => []
  | (k, v) :: rest, s, a => if k = s then (k, a) :: rest else (k, v) :: aupdate rest s a

/-- Python dict deletion `del m[s]`. -/

def aerase {α : Type} : List (String × α) → String → List (String × α)
  | [], _ => []
  | (k, v) :: rest, s => if k = s then rest else (k, v) :: aerase rest s

/-- The initial ledger returned by `PortfolioManager._load_portfolio` when the
store file is missing: `{cash: 100000, holdings: {}, transactions: [],
created_at: now}`. -/

def initialPortfolio (now : String) : Portfolio :=
  { cash := 100000, holdings := [], transactions := [], created_at := now }

/-- Result of a mutating `PortfolioManager` call: the new ledger, the
`success` flag of the returned dict, and whether `_save_portfolio` ran. -/

structure OpResult where
  portfolio : Portfolio
  success : Bool
  persisted : Bool
deriving Repr, DecidableEq

/-- `PortfolioManager.add_position(symbol, shares, price, date)`
(`portfolio_manager.py` lines 43-93): rejects the buy when
`cost > cash` without touching the ledger; otherwise merges the fill into the
holding (recomputing `avg_price = total_cost / total_shares`), debits cash by
`cost`, appends a BUY transaction and saves. -/

def add_position (p : Portfolio) (symbol : String) (shares price : ℚ) (date : String) :
    OpResult :=
  let cost := shares * price
  if cost > p.cash then
    ⟨p, false, false⟩
  else
    let holdings :=
      match alookup p.holdings symbol with
      | some holding =>
          let total_shares := holding.shares + shares
          let total_cost := holding.total_cost + cost
          aupdate p.holdings symbol
            { holding with
                shares := total_shares
                avg_price := total_cost / total_shares
                total_cost := total_cost }
      | none => p.holdings ++ [(symbol, ⟨shares, price, cost, date⟩)]
    ⟨{ cash := p.cash - cost
       holdings := holdings
       transactions := p.transactions ++ [.buy symbol shares price cost date]
       created_at := p.created_at }, true, true⟩

/-- `PortfolioManager.remove_position(symbol, shares, price, date)`
(`portfolio_manager.py` lines 95-148): fails when the symbol is not held or
`shares > holding['shares']`; otherwise decrements the holding (removing its
cost basis `avg_price * shares`), deletes it at zero shares, credits cash
with the proceeds, appends a SELL transaction carrying
`profit = proceeds - cost_basis` and saves. -/

def remove_position (p : Portfolio) (symbol : String) (shares price : ℚ) (date : String) :
    OpResult :=
  match alookup p.holdings symbol with
  | none => ⟨p, false, false⟩
  | some holding =>
    if shares > holding.shares then
      ⟨p, false, false⟩
    else
      let proceeds := shares * price
      let cost_basis := holding.avg_price * shares
      let profit := proceeds - cost_basis
      let newShares := holding.shares - shares
      let holdings :=
        if newShares = 0 then aerase p.holdings symbol
        else
          aupdate p.holdings symbol
            { holding with shares := newShares, total_cost := holding.total_cost - cost_basis }
      ⟨{ cash := p.cash + proceeds
         holdings := holdings
         transactions := p.transactions ++ [.sell symbol shares price proceeds profit date]
         created_at := p.created_at }, true, true⟩

/-! ### Association-list lemmas (Python dict semantics) -/

/-! ### Claims about the ledger operations -/

/-! ### Sequences of ledger mutations -/

/-- A call to one of the two mutating `PortfolioManager` entry points. -/

inductive LedgerOp where
  | buy (symbol : String) (shares price : ℚ) (date : String)
  | sell (symbol : String) (shares price : ℚ) (date : String)
deriving Repr, DecidableEq

/-- Dispatch one call (failed calls leave the ledger unchanged). -/

def applyOp (p : Portfolio) : LedgerOp → Portfolio
  | .buy s sh pr d => (add_position p s sh pr d).portfolio
  | .sell s sh pr d => (remove_position p s sh pr d).portfolio

/-- Run a sequence of `add_position` / `remove_position` calls. -/

def applyOps (p : Portfolio) (ops : List LedgerOp) : Portfolio :=
  ops.foldl applyOp p

/-- The call passes positive shares and a positive price. -/

def posOp : LedgerOp → Prop
  | .buy _ sh pr _ => 0 < sh ∧ 0 < pr
  | .sell _ sh pr _ => 0 < sh ∧ 0 < pr

/-- Ledger invariant: non-negative cash and strictly positive share counts
(a position with zero shares is deleted by the code). -/

def GoodLedger (p : Portfolio) : Prop :=
  0 ≤ p.cash ∧ ∀ x ∈ p.holdings, 0 < x.2.shares

/-- Iterated `add_position` fills on one symbol, also returning the sub-list
of fills that were accepted (`success = true`). -/

def runBuys (symbol date : String) : Portfolio → List (ℚ × ℚ) → Portfolio × List (ℚ × ℚ)
  | p, [] => (p, [])
  | p, f :: rest =>
    let r := add_position p symbol f.1 f.2 date
    let t := runBuys symbol date r.portfolio rest
    (t.1, if r.success then f :: t.2 else t.2)

/-- Total shares of a list of fills. -/

def fillsShares (acc : List (ℚ × ℚ)) : ℚ := (acc.map Prod.fst).sum

/-- Total cost of a list of fills. -/

def fillsCost (acc : List (ℚ × ℚ)) : ℚ := (acc.map fun f => f.1 * f.2).sum

/-! ### Broker snapshot and reconciliation (`kis_connector.py`) -/

/-- One aggregated entry of `all_holdings` built by
`KISConnector.parse_portfolio`: keys `name`, `shares`, `avg_price`,
`current_value` (the `symbol` key duplicates the map key). -/

structure AggHolding where
  name : String
  shares : ℚ
  avg_price : ℚ
  current_value : ℚ
deriving Repr, DecidableEq

/-- The snapshot returned by `KISConnector.parse_portfolio` as consumed by
`sync_to_portfolio_manager`: aggregated holdings plus cash. -/

structure BrokerSnapshot where
  holdings : List (String × AggHolding)
  cash : ℚ
deriving Repr, DecidableEq

/-- Modelled from the spec: `PortfolioManager.clear_holdings` is called by
`KISConnector.sync_to_portfolio_manager` but is missing from
`portfolio_manager.py`. The spec describes the sync as "a full replacement
of the Ledger's cash and holdings (the transaction log is untouched)", so
this empties the holdings map and nothing else. -/

def clear_holdings (p : Portfolio) : Portfolio :=
  { p with holdings := [] }

/-- Modelled from the spec: `PortfolioManager.set_cash` (missing from
`portfolio_manager.py`) overwrites the ledger's cash with the broker's
authoritative value. -/

def set_cash (p : Portfolio) (c : ℚ) : Portfolio :=
  { p with cash := c }

/-- Modelled from the spec: `PortfolioManager.set_holding` (missing from
`portfolio_manager.py`) stores the broker snapshot's position for a symbol
into the holdings dict (Python dict assignment semantics); the ancillary
cost-basis fields are derived from the snapshot values. -/

def set_holding (p : Portfolio) (symbol : String) (shares avg_price : ℚ) : Portfolio :=
  { p with holdings :=
      match alookup p.holdings symbol with
      | some _ => aupdate p.holdings symbol ⟨shares, avg_price, shares * avg_price, ""⟩
      | none => p.holdings ++ [(symbol, ⟨shares, avg_price, shares * avg_price, ""⟩)] }

/-- `KISConnector.sync_to_portfolio_manager` (`kis_connector.py` 167-190)
applied to an already-fetched snapshot: clear all holdings, set the cash,
then set each snapshot holding. -/

def sync_to_portfolio_manager (p : Portfolio) (snap : BrokerSnapshot) : Portfolio :=
  snap.holdings.foldl
    (fun acc kv => set_holding acc kv.1 kv.2.shares kv.2.avg_price)
    (set_cash (clear_holdings p) snap.cash)

/-! ### Per-segment aggregation in `KISConnector.parse_portfolio` -/

/-- One row of a segment's `output1` holdings list, with the fields read by
`parse_portfolio`: `ovrs_pdno` (symbol), `ovrs_item_name` (name),
`ovrs_cblc_qty` (shares), `pchs_avg_pric` (average cost),
`ovrs_stck_evlu_amt` (market value). -/

structure SegmentItem where
  symbol : String
  name : String
  shares : ℚ
  avg_price : ℚ
  value : ℚ
deriving Repr, DecidableEq

/-- Outcome of querying one market segment: `failure` covers both a raised
exception (caught and skipped) and a response without `rt_cd = 0` /
`output1`; otherwise the `output1` rows. -/

inductive SegmentResult where
  | failure
  | items (xs : List SegmentItem)
deriving Repr, DecidableEq

/-- The loop body of `parse_portfolio` for one row: rows with
non-positive shares are skipped; a fresh symbol is inserted (zero-initialised
then updated); an existing symbol is merged by `shares +=`,
`avg_price =` (overwrite), `current_value +=`, keeping the first name. -/

def stepItem (acc : List (String × AggHolding)) (it : SegmentItem) :
    List (String × AggHolding) :=
  if 0 < it.shares then
    match alookup acc it.symbol with
    | none => acc ++ [(it.symbol, ⟨it.name, it.shares, it.avg_price, it.value⟩)]
    | some h =>
        aupdate acc it.symbol
          ⟨h.name, h.shares + it.shares, it.avg_price, h.current_value + it.value⟩
  else acc

/-- The holdings aggregation of `KISConnector.parse_portfolio`
(`kis_connector.py` 101-165) over the per-segment query results, in segment
order. -/

def parse_portfolio_holdings (segs : List SegmentResult) : List (String × AggHolding) :=
  segs.foldl
    (fun acc seg =>
      match seg with
      | .failure => acc
      | .items xs => xs.foldl stepItem acc) []

/-- The rows of one segment result. -/

def segItems : SegmentResult → List SegmentItem
  | .failure => []
  | .items xs => xs

/-- The rows that contribute to a symbol's aggregate: matching symbol and a
positive share count. -/

def relevantItems (sym : String) (items : List SegmentItem) : List SegmentItem :=
  items.filter (fun it => decide (it.symbol = sym) && decide (0 < it.shares))

/-- Stated from the spec's words, as amended: share counts and market values
are summed over a symbol's qualifying rows, the average-cost field is the
most recently observed one, the name the first observed, and a symbol with no
qualifying row is absent from the result. -/

def specMerge (sym : String) (items : List SegmentItem) : Option AggHolding :=
  match relevantItems sym items with
  | [] => none
  | it :: rest =>
    some ⟨it.name, ((it :: rest).map SegmentItem.shares).sum,
      ((rest.getLast?).map SegmentItem.avg_price).getD it.avg_price,
      ((it :: rest).map SegmentItem.value).sum⟩

/-- The running merge performed by the loop, starting from the accumulator's
current entry for the symbol. -/

def mergeInto : Option AggHolding → List SegmentItem → Option AggHolding
  | acc, [] => acc
  | none, it :: rest =>
      mergeInto (some ⟨it.name, it.shares, it.avg_price, it.value⟩) rest
  | some h, it :: rest =>
      mergeInto (some ⟨h.name, h.shares + it.shares, it.avg_price,
        h.current_value + it.value⟩) rest

/-! ### Guardrail validation (`order_executor.py`) -/

/-- The messages `OrderExecutor.validate_order` can append, identified by
their producing check (the formatted message text is presentation only). -/

inductive Msg where
  | orderValueOverMax
  | insufficientCash
  | minCashReserveBreach
  | concentrationOverMax
  | notHeld
  | insufficientShares
deriving Repr, DecidableEq

/-- The `order_type` argument ("BUY" / "SELL"). -/

inductive Side where
  | buyOrder
  | sellOrder
deriving Repr, DecidableEq

/-- The fields of `pm.get_current_value()` that `validate_order` reads: cash,
the holdings list (symbol and current value of each), and the total account
value. -/

structure SnapHolding where
  symbol : String
  current_value : ℚ
deriving Repr, DecidableEq

/-- The snapshot returned by `PortfolioManager.get_current_value`, as read by
`validate_order`. -/

structure CurrentValue where
  cash : ℚ
  holdings : List SnapHolding
  total_value : ℚ
deriving Repr, DecidableEq

/-- The dict returned by `validate_order`. -/

structure ValidationResult where
  valid : Bool
  issues : List Msg
  warnings : List Msg
  order_value : ℚ
deriving Repr, DecidableEq

/-- `self.max_order_value` (`order_executor.py` line 19). -/

def max_order_value : ℚ := 10000

/-- `self.max_position_pct` (`order_executor.py` line 20). -/

def max_position_pct : ℚ := 3 / 10

/-- `self.min_cash_reserve` (`order_executor.py` line 21). -/

def min_cash_reserve : ℚ := 100

/-- Modelled from the spec: `PortfolioManager.get_holding` is called by
`OrderExecutor.validate_order` but is missing from `portfolio_manager.py`;
per the spec's sell guardrail ("symbol currently held with shares ≥ requested
quantity") it returns the ledger's holding for the symbol when present. -/

def get_holding (p : Portfolio) (symbol : String) : Option Holding :=
  alookup p.holdings symbol

/-- `OrderExecutor.validate_order` (`order_executor.py` 23-68): the order
value ceiling is checked for every order; a buy adds a hard issue on
insufficient cash, a warning when the post-trade cash would drop below the
minimum reserve, and a warning when the resulting position weight exceeds the
concentration ceiling; a sell adds a hard issue when the symbol is not held
or held in fewer shares than requested. `valid` is `issues == []`. -/

def validate_order (p : Portfolio) (current : CurrentValue) (symbol : String)
    (quantity price : ℚ) (side : Side) : ValidationResult :=
  let order_value := quantity * price
  let issues0 : List Msg :=
    if order_value > max_order_value then [.orderValueOverMax] else []
  match side with
  | .buyOrder =>
    let issues1 := issues0 ++
      (if order_value > current.cash then [.insufficientCash] else [])
    let warnings0 : List Msg :=
      if current.cash - order_value < min_cash_reserve then [.minCashReserveBreach] else []
    let future_position_value := order_value +
      ((current.holdings.filter
        (fun h => h.symbol == symbol)).map SnapHolding.current_value).sum
    let future_pct := future_position_value / (current.total_value + order_value)
    let warnings1 := warnings0 ++
      (if future_pct > max_position_pct then [.concentrationOverMax] else [])
    ⟨issues1.isEmpty, issues1, warnings1, order_value⟩
  | .sellOrder =>
    let issues1 := issues0 ++
      (match get_holding p symbol with
       | none => [.notHeld]
       | some h => if h.shares < quantity then [.insufficientShares] else [])
    ⟨issues1.isEmpty, issues1, [], order_value⟩

/-! ### Buy-quantity resolution (`decision_parser.py`) -/

/-- Python `int(x)` applied to a float: truncation toward zero. -/

def pyInt (q : ℚ) : ℤ := if 0 ≤ q then ⌊q⌋ else ⌈q⌉

/-- One entry of the `buys` list produced by `parse_decision`. -/

structure BuyIntent where
  symbol : String
  target_amount : ℚ
  reason : String
deriving Repr, DecidableEq

/-- One resolved order produced by `calculate_buy_quantities`. -/

structure ResolvedBuy where
  symbol : String
  quantity : ℤ
  price : ℚ
  total_cost : ℚ
  reason : String
deriving Repr, DecidableEq

/-- `DecisionParser.calculate_buy_quantities` (`decision_parser.py` 104-138):
an intent whose price is missing from `current_prices` or falsy (zero) is
skipped; otherwise `quantity = int(target_amount / price)` and the intent is
kept only when the quantity is positive, with
`total_cost = quantity * price`. -/

def calculate_buy_quantities (buys : List BuyIntent)
    (current_prices : List (String × ℚ)) : List ResolvedBuy :=
  buys.foldl
    (fun result buy =>
      match alookup current_prices buy.symbol with
      | none => result
      | some price =>
        if price = 0 then result
        else
          let quantity := pyInt (buy.target_amount / price)
          if 0 < quantity then
            result ++ [⟨buy.symbol, quantity, price, (quantity : ℚ) * price, buy.reason⟩]
          else result)
    []

/-! ### Batch execution in `confirm_all_cmd` (`telegram_trading_bot.py`) -/

/-- One entry of `pending_orders['sells']` (from `parse_decision`). -/

structure PendingSell where
  symbol : String
  quantity : ℚ
  reason : String
deriving Repr, DecidableEq

/-- The outcome of one `OrderExecutor.execute_sell` / `execute_buy` call
(validation plus broker submission; exceptions are caught inside `execute_*`
and returned as failures). -/

inductive ExecResult where
  | success (executed_price : ℚ)
  | failure (error : String)
deriving Repr, DecidableEq

/-- One success record appended to `results['sells']` / `results['buys']`. -/

structure ExecRecord where
  symbol : String
  quantity : ℚ
  price : ℚ
deriving Repr, DecidableEq

/-- The `results` dict of `confirm_all_cmd`; an error entry keeps the symbol
and the error text (the code formats them into one message string). -/

structure BatchResults where
  sells : List ExecRecord
  buys : List ExecRecord
  errors : List (String × String)
deriving Repr, DecidableEq

/-- The sell-loop body of `confirm_all_cmd` (lines 246-263): execute with
`int(quantity)`, record a success with the original quantity and the executed
price, or append an error entry; either way the attempt happened. The second
component is the chronological list of execution attempts. -/

def sellStep (oracle : Side → String → ℤ → ExecResult)
    (st : BatchResults × List (Side × String)) (sell : PendingSell) :
    BatchResults × List (Side × String) :=
  match oracle .sellOrder sell.symbol (pyInt sell.quantity) with
  | .success price =>
    ({ st.1 with sells := st.1.sells ++ [⟨sell.symbol, sell.quantity, price⟩] },
     st.2 ++ [(.sellOrder, sell.symbol)])
  | .failure err =>
    ({ st.1 with errors := st.1.errors ++ [(sell.symbol, err)] },
     st.2 ++ [(.sellOrder, sell.symbol)])

/-- The buy-loop body of `confirm_all_cmd` (lines 266-283). -/

def buyStep (oracle : Side → String → ℤ → ExecResult)
    (st : BatchResults × List (Side × String)) (buy : ResolvedBuy) :
    BatchResults × List (Side × String) :=
  match oracle .buyOrder buy.symbol buy.quantity with
  | .success price =>
    ({ st.1 with buys := st.1.buys ++ [⟨buy.symbol, (buy.quantity : ℚ), price⟩] },
     st.2 ++ [(.buyOrder, buy.symbol)])
  | .failure err =>
    ({ st.1 with errors := st.1.errors ++ [(buy.symbol, err)] },
     st.2 ++ [(.buyOrder, buy.symbol)])

/-- `confirm_all_cmd` (`telegram_trading_bot.py` 224-318): run every sell,
then every buy, each attempted independently of earlier failures; returns the
aggregated results and the chronological attempt list. -/

def confirm_all (oracle : Side → String → ℤ → ExecResult)
    (sells : List PendingSell) (buys : List ResolvedBuy) :
    BatchResults × List (Side × String) :=
  buys.foldl (buyStep oracle) (sells.foldl (sellStep oracle) (⟨[], [], []⟩, []))

/-- Total number of per-order outcome records in the report. -/

def numRecords (b : BatchResults) : ℕ :=
  b.sells.length + b.buys.length + b.errors.length

/-- A broker behaviour for the spec's example batch: the sell of `S1` fails,
every other order succeeds. -/

def exampleOracle : Side → String → ℤ → ExecResult := fun side symbol _ =>
  if side = Side.sellOrder ∧ symbol = "S1" then .failure "rejected"
  else .success 10

/-! ### Persistence (`portfolio_manager.py` `_save_portfolio` / `_load_portfolio`)

`json.dump` followed by `json.load` is the identity on parsed JSON documents
for this data (finite numbers, strings, insertion-ordered objects), so the
store is modelled as holding a parsed document `JValue`; `_save_portfolio`
writes the ledger's document and `_load_portfolio` reads it back. -/

/-- A parsed JSON value. Numbers are exact rationals, like the rest of the
embedding. -/

inductive JValue where
  | num (q : ℚ)
  | str (s : String)
  | arr (xs : List JValue)
  | obj (kvs : List (String × JValue))
deriving Repr

/-- The holdings entry dict written by `_save_portfolio`
(`{shares, avg_price, total_cost, first_purchase}`). -/

def holdingToJson (h : Holding) : JValue :=
  .obj [("shares", .num h.shares), ("avg_price", .num h.avg_price),
    ("total_cost", .num h.total_cost), ("first_purchase", .str h.first_purchase)]

/-- The transaction dicts written by `_save_portfolio` (BUY:
`{type, symbol, shares, price, cost, date}`; SELL:
`{type, symbol, shares, price, proceeds, profit, date}`). -/

def transactionToJson : Transaction → JValue
  | .buy symbol shares price cost date =>
    .obj [("type", .str "BUY"), ("symbol", .str symbol), ("shares", .num shares),
      ("price", .num price), ("cost", .num cost), ("date", .str date)]
  | .sell symbol shares price proceeds profit date =>
    .obj [("type", .str "SELL"), ("symbol", .str symbol), ("shares", .num shares),
      ("price", .num price), ("proceeds", .num proceeds), ("profit", .num profit),
      ("date", .str date)]

/-- `_save_portfolio` (`portfolio_manager.py` 38-41): the persisted document
`{cash, holdings, transactions, created_at}`. -/

def portfolioToJson (p : Portfolio) : JValue :=
  .obj [("cash", .num p.cash),
    ("holdings", .obj (p.holdings.map fun kv => (kv.1, holdingToJson kv.2))),
    ("transactions", .arr (p.transactions.map transactionToJson)),
    ("created_at", .str p.created_at)]

/-- Read a JSON number. -/

def jnum : JValue → Option ℚ
  | .num q => some q
  | _ => none

/-- Read a JSON string. -/

def jstr : JValue → Option String
  | .str s => some s
  | _ => none

/-- Reconstruct one holdings entry from its persisted dict. -/

def holdingOfJson : JValue → Option Holding
  | .obj kvs =>
    match (alookup kvs "shares").bind jnum, (alookup kvs "avg_price").bind jnum,
          (alookup kvs "total_cost").bind jnum,
          (alookup kvs "first_purchase").bind jstr with
    | some sh, some ap, some tc, some fp => some ⟨sh, ap, tc, fp⟩
    | _, _, _, _ => none
  | _ => none

/-- Reconstruct the holdings map, preserving insertion order. -/

def holdingsOfJson : List (String × JValue) → Option (List (String × Holding))
  | [] => some []
  | (k, v) :: rest =>
    match holdingOfJson v, holdingsOfJson rest with
    | some h, some tl => some ((k, h) :: tl)
    | _, _ => none

/-- Reconstruct one transaction from its persisted dict, keyed on `type`. -/

def transactionOfJson : JValue → Option Transaction
  | .obj kvs =>
    match (alookup kvs "type").bind jstr with
    | some "BUY" =>
      match (alookup kvs "symbol").bind jstr, (alookup kvs "shares").bind jnum,
            (alookup kvs "price").bind jnum, (alookup kvs "cost").bind jnum,
            (alookup kvs "date").bind jstr with
      | some symbol, some shares, some price, some cost, some date =>
        some (.buy symbol shares price cost date)
      | _, _, _, _, _ => none
    | some "SELL" =>
      match (alookup kvs "symbol").bind jstr, (alookup kvs "shares").bind jnum,
            (alookup kvs "price").bind jnum, (alookup kvs "proceeds").bind jnum,
            (alookup kvs "profit").bind jnum, (alookup kvs "date").bind jstr with
      | some symbol, some shares, some price, some proceeds, some profit, some date =>
        some (.sell symbol shares price proceeds profit date)
      | _, _, _, _, _, _ => none
    | _ => none
  | _ => none

/-- Reconstruct the ordered transaction list. -/

def transactionsOfJson : List JValue → Option (List Transaction)
  | [] => some []
  | v :: rest =>
    match transactionOfJson v, transactionsOfJson rest with
    | some t, some tl => some (t :: tl)
    | _, _ => none

/-- Reconstruct the whole ledger from the persisted document. -/

def portfolioOfJson : JValue → Option Portfolio
  | .obj kvs =>
    match (alookup kvs "cash").bind jnum, alookup kvs "holdings",
          alookup kvs "transactions", (alookup kvs "created_at").bind jstr with
    | some cash, some (.obj hk), some (.arr ts), some created =>
      match holdingsOfJson hk, transactionsOfJson ts with
      | some holdings, some txs => some ⟨cash, holdings, txs, created⟩
      | _, _ => none
    | _, _, _, _ => none
  | _ => none

/-- The state of the store file as `_load_portfolio` can encounter it:
missing (`open` raises `FileNotFoundError`, which is caught), unreadable
(`open` raises another `OSError`, which is not caught), or present with
content that either fails to parse (`json.load` raises `JSONDecodeError`,
not caught) or parses to a document. -/

inductive StoreState where
  | missing
  | unreadable
  | corrupted
  | parsed (j : JValue)

/-- The exceptions `_load_portfolio` lets escape to its caller. -/

inductive LoadError where
  | ioError
  | jsonDecodeError
deriving Repr, DecidableEq

/-- `PortfolioManager._load_portfolio` (`portfolio_manager.py` 24-36): only
`FileNotFoundError` is caught, returning the initial ledger
`{cash: 100000, holdings: {}, transactions: [], created_at: now}`; every
other failure propagates. -/

def load_portfolio (now : String) : StoreState → Except LoadError JValue
  | .missing => .ok (portfolioToJson (initialPortfolio now))
  | .unreadable => .error .ioError
  | .corrupted => .error .jsonDecodeError
  | .parsed j => .ok j

/-! ### Theorems -/

theorem alookup_mem {α : Type} {m : List (String × α)} {s : String} {v : α}
    (h : alookup m s = some v) : (s, v) ∈ m := by
  induction m with
  | nil => simp [alookup] at h
  | cons kv rest ih =>
    rw [alookup] at h
    by_cases hk : kv.1 = s
    · rw [if_pos hk] at h
      obtain ⟨k, v2⟩ := kv
      injection h with h2
      subst h2
      subst hk
      exact List.mem_cons_self _ _
    · rw [if_neg hk] at h
      exact List.mem_cons_of_mem _ (ih h)

theorem alookup_eq_none_of_not_mem_keys {α : Type} {m : List (String × α)} {s : String}
    (h : s ∉ m.map Prod.fst) : alookup m s = none := by
  induction m with
  | nil => rfl
  | cons kv rest ih =>
    simp only [List.map_cons, List.mem_cons, not_or] at h
    rw [alookup, if_neg (fun he => h.1 he.symm)]
    exact ih h.2

theorem alookup_aupdate_self {α : Type} (m : List (String × α)) (s : String) (a : α) :
    alookup (aupdate m s a) s = (alookup m s).map (fun _ => a) := by
  induction m with
  | nil => simp [alookup, aupdate]
  | cons kv rest ih =>
    by_cases hk : kv.1 = s
    · simp [aupdate, alookup, hk]
    · simp [aupdate, alookup, hk, ih]

theorem alookup_aupdate_ne {α : Type} (m : List (String × α)) (s t : String) (a : α)
    (h : t ≠ s) : alookup (aupdate m s a) t = alookup m t := by
  induction m with
  | nil => simp [alookup, aupdate]
  | cons kv rest ih =>
    by_cases hk : kv.1 = s
    · simp [aupdate, alookup, hk, Ne.symm h]
    · by_cases hk2 : kv.1 = t <;> simp [aupdate, alookup, hk, hk2, ih, h]

theorem alookup_aerase_self {α : Type} (m : List (String × α)) (s : String)
    (hnd : (m.map Prod.fst).Nodup) : alookup (aerase m s) s = none := by
  induction m with
  | nil => rfl
  | cons kv rest ih =>
    simp only [List.map_cons, List.nodup_cons] at hnd
    by_cases hk : kv.1 = s
    · rw [aerase, if_pos hk]
      exact alookup_eq_none_of_not_mem_keys (hk ▸ hnd.1)
    · rw [aerase, if_neg hk, alookup, if_neg hk]
      exact ih hnd.2

theorem alookup_aerase_ne {α : Type} (m : List (String × α)) (s t : String)
    (h : t ≠ s) : alookup (aerase m s) t = alookup m t := by
  induction m with
  | nil => rfl
  | cons kv rest ih =>
    by_cases hk : kv.1 = s
    · rw [aerase, if_pos hk, alookup, if_neg (by rw [hk]; exact Ne.symm h)]
    · by_cases hk2 : kv.1 = t <;> simp [aerase, alookup, hk, hk2, ih, h]

theorem mem_aupdate {α : Type} {m : List (String × α)} {s : String} {a : α} {x : String × α}
    (h : x ∈ aupdate m s a) : x ∈ m ∨ x.2 = a := by
  induction m with
  | nil => simp [aupdate] at h
  | cons kv rest ih =>
    by_cases hk : kv.1 = s
    · rw [aupdate, if_pos hk] at h
      rcases List.mem_cons.mp h with h1 | h1
      · right; rw [h1]
      · left; exact List.mem_cons_of_mem _ h1
    · rw [aupdate, if_neg hk] at h
      rcases List.mem_cons.mp h with h1 | h1
      · left; exact h1 ▸ List.mem_cons_self _ _
      · rcases ih h1 with h2 | h2
        · left; exact List.mem_cons_of_mem _ h2
        · right; exact h2

theorem mem_aerase {α : Type} {m : List (String × α)} {s : String} {x : String × α}
    (h : x ∈ aerase m s) : x ∈ m := by
  induction m with
  | nil => simp [aerase] at h
  | cons kv rest ih =>
    by_cases hk : kv.1 = s
    · rw [aerase, if_pos hk] at h
      exact List.mem_cons_of_mem _ h
    · rw [aerase, if_neg hk] at h
      rcases List.mem_cons.mp h with h1 | h1
      · exact h1 ▸ List.mem_cons_self _ _
      · exact List.mem_cons_of_mem _ (ih h1)

theorem alookup_append_left {α : Type} {m : List (String × α)} (l : List (String × α))
    {s : String} {v : α} (h : alookup m s = some v) : alookup (m ++ l) s = some v := by
  induction m with
  | nil => simp [alookup] at h
  | cons kv rest ih =>
    rw [alookup] at h
    rw [List.cons_append, alookup]
    by_cases hk : kv.1 = s
    · rw [if_pos hk] at h
      rw [if_pos hk]
      exact h
    · rw [if_neg hk] at h
      rw [if_neg hk]
      exact ih h

theorem alookup_append_right {α : Type} {m : List (String × α)} (l : List (String × α))
    {s : String} (h : alookup m s = none) : alookup (m ++ l) s = alookup l s := by
  induction m with
  | nil => simp
  | cons kv rest ih =>
    rw [alookup] at h
    rw [List.cons_append, alookup]
    by_cases hk : kv.1 = s
    · rw [if_pos hk] at h
      exact absurd h (by simp)
    · rw [if_neg hk] at h
      rw [if_neg hk]
      exact ih h

/-- C5: `remove_position` fails with the insufficient-holdings error exactly
when the symbol is not held or the requested shares exceed the held amount; on
success it decrements the holding by `shares` (deleting the position when its
shares reach zero), leaves other symbols untouched, credits cash by
`shares * price`, and appends a SELL transaction whose recorded profit is
`shares * (price - avg_price)`. -/
theorem remove_position_spec (p : Portfolio) (symbol : String) (shares price : ℚ)
    (date : String) (hnd : (p.holdings.map Prod.fst).Nodup) :
    ((remove_position p symbol shares price date).success = false ↔
      alookup p.holdings symbol = none ∨
        ∃ h, alookup p.holdings symbol = some h ∧ h.shares < shares) ∧
    ∀ h, alookup p.holdings symbol = some h → shares ≤ h.shares →
      (remove_position p symbol shares price date).success = true ∧
      (remove_position p symbol shares price date).portfolio.cash = p.cash + shares * price ∧
      alookup (remove_position p symbol shares price date).portfolio.holdings symbol =
        (if shares = h.shares then none
         else some { h with
                      shares := h.shares - shares
                      total_cost := h.total_cost - h.avg_price * shares }) ∧
      (∀ t, t ≠ symbol →
        alookup (remove_position p symbol shares price date).portfolio.holdings t =
          alookup p.holdings t) ∧
      (remove_position p symbol shares price date).portfolio.transactions =
        p.transactions ++
          [Transaction.sell symbol shares price (shares * price)
            (shares * (price - h.avg_price)) date] := by
  cases hl : alookup p.holdings symbol with
  | none =>
    refine ⟨?_, ?_⟩
    · simp [remove_position, hl]
    · intro h hsome
      exact absurd hsome (by simp)
  | some holding =>
    by_cases hgt : holding.shares < shares
    · refine ⟨?_, ?_⟩
      · simp only [remove_position, hl, if_pos hgt]
        constructor
        · intro _
          exact Or.inr ⟨holding, rfl, hgt⟩
        · intro _
          trivial
      · intro h hsome hle
        injection hsome with he
        subst he
        exact absurd hle (not_le.mpr hgt)
    · have hred : remove_position p symbol shares price date =
          ⟨{ cash := p.cash + shares * price
             holdings :=
               if holding.shares - shares = 0 then aerase p.holdings symbol
               else
                 aupdate p.holdings symbol
                   { holding with
                      shares := holding.shares - shares
                      total_cost := holding.total_cost - holding.avg_price * shares }
             transactions := p.transactions ++
               [Transaction.sell symbol shares price (shares * price)
                 (shares * price - holding.avg_price * shares) date]
             created_at := p.created_at }, true, true⟩ := by
        simp only [remove_position, hl, if_neg hgt]
      refine ⟨?_, ?_⟩
      · rw [hred]
        simp only [Bool.true_eq_false, false_iff]
        rintro (hc | ⟨h, hsome, hlt⟩)
        · exact absurd hc (by simp)
        · injection hsome with he
          subst he
          exact hgt hlt
      · intro h hsome hle
        injection hsome with he
        subst he
        rw [hred]
        refine ⟨rfl, rfl, ?_, ?_, ?_⟩
        · by_cases hz : holding.shares - shares = 0
          · have hz2 : shares = holding.shares := by
              have := sub_eq_zero.mp hz
              linarith
            simp only [if_pos hz, if_pos hz2]
            exact alookup_aerase_self _ _ hnd
          · have hz2 : ¬ shares = holding.shares := fun he => hz (by rw [he]; ring)
            simp only [if_neg hz, if_neg hz2]
            rw [alookup_aupdate_self, hl]
            rfl
        · intro t ht
          by_cases hz : holding.shares - shares = 0
          · simp only [if_pos hz]
            exact alookup_aerase_ne _ _ _ ht
          · simp only [if_neg hz]
            exact alookup_aupdate_ne _ _ _ _ ht
        · have hpr : shares * price - holding.avg_price * shares =
              shares * (price - holding.avg_price) := by
            ring
          rw [hpr]

/-- Witness for C5 at a concrete ledger: selling 2 of 5 held shares of `A`
at price 20 succeeds and credits the cash by 40. -/
theorem remove_position_spec_witness :
    (remove_position ⟨1000, [("A", ⟨5, 10, 50, "d0"⟩)], [], "t"⟩ "A" 2 20 "d").success = true ∧
    (remove_position ⟨1000, [("A", ⟨5, 10, 50, "d0"⟩)], [], "t"⟩ "A" 2 20 "d").portfolio.cash =
      1040 := by
  have h := remove_position_spec ⟨1000, [("A", ⟨5, 10, 50, "d0"⟩)], [], "t"⟩ "A" 2 20 "d"
    (by decide)
  have h3 := h.2 ⟨5, 10, 50, "d0"⟩ (by decide) (by norm_num)
  refine ⟨h3.1, ?_⟩
  rw [h3.2.1]
  norm_num

/-- C10: a buy whose cost exceeds the available cash is rejected by
`add_position` with `success = false`, the whole ledger (cash, holdings,
transaction log) left exactly as before, and nothing persisted. -/
theorem add_position_insufficient_cash (p : Portfolio) (symbol : String)
    (shares price : ℚ) (date : String) (h : p.cash < shares * price) :
    (add_position p symbol shares price date).success = false ∧
    (add_position p symbol shares price date).portfolio = p ∧
    (add_position p symbol shares price date).persisted = false := by
  have hred : add_position p symbol shares price date = ⟨p, false, false⟩ := by
    simp only [add_position, if_pos (gt_iff_lt.mpr h)]
  rw [hred]
  exact ⟨rfl, rfl, rfl⟩

/-- Witness for C10: buying 2000 shares at 100 against the initial 100000
cash is rejected and leaves the ledger untouched. -/
theorem add_position_insufficient_cash_witness :
    (add_position (initialPortfolio "t") "A" 2000 100 "d").success = false ∧
    (add_position (initialPortfolio "t") "A" 2000 100 "d").portfolio = initialPortfolio "t" ∧
    (add_position (initialPortfolio "t") "A" 2000 100 "d").persisted = false :=
  add_position_insufficient_cash (initialPortfolio "t") "A" 2000 100 "d"
    (by norm_num [initialPortfolio])

theorem goodLedger_applyOp (p : Portfolio) (op : LedgerOp) (hg : GoodLedger p)
    (hpos : posOp op) : GoodLedger (applyOp p op) := by
  cases op with
  | buy symbol sh pr d =>
    obtain ⟨hsh, hpr⟩ := hpos
    simp only [applyOp, add_position]
    split
    · exact hg
    next hc =>
      have hcash : sh * pr ≤ p.cash := not_lt.mp hc
      split
      next holding hl =>
        refine ⟨sub_nonneg.mpr hcash, ?_⟩
        intro x hx
        rcases mem_aupdate hx with hm | he
        · exact hg.2 x hm
        · rw [he]
          have h0 : 0 < holding.shares := hg.2 _ (alookup_mem hl)
          show 0 < holding.shares + sh
          exact add_pos h0 hsh
      next hl =>
        refine ⟨sub_nonneg.mpr hcash, ?_⟩
        intro x hx
        rcases List.mem_append.mp hx with hm | hm
        · exact hg.2 x hm
        · rw [List.mem_singleton.mp hm]
          exact hsh
  | sell symbol sh pr d =>
    obtain ⟨hsh, hpr⟩ := hpos
    simp only [applyOp, remove_position]
    split
    · exact hg
    next holding hl =>
      split
      · exact hg
      next hgt =>
        have hle : sh ≤ holding.shares := not_lt.mp hgt
        constructor
        · show 0 ≤ p.cash + sh * pr
          exact add_nonneg hg.1 (le_of_lt (mul_pos hsh hpr))
        · intro x hx
          by_cases hz : holding.shares - sh = 0
          · rw [if_pos hz] at hx
            exact hg.2 x (mem_aerase hx)
          · rw [if_neg hz] at hx
            rcases mem_aupdate hx with hm | he
            · exact hg.2 x hm
            · rw [he]
              show 0 < holding.shares - sh
              exact lt_of_le_of_ne (sub_nonneg.mpr hle) (Ne.symm hz)

theorem goodLedger_applyOps (ops : List LedgerOp) :
    ∀ p : Portfolio, GoodLedger p → (∀ op ∈ ops, posOp op) →
      GoodLedger (applyOps p ops) := by
  induction ops with
  | nil => exact fun p hg _ => hg
  | cons op rest ih =>
    intro p hg hpos
    exact ih _ (goodLedger_applyOp p op hg (hpos op (List.mem_cons_self _ _)))
      (fun o ho => hpos o (List.mem_cons_of_mem _ ho))

theorem add_position_lookup_some (p : Portfolio) (symbol : String) (sh pr : ℚ)
    (date : String) (h : Holding) (hl : alookup p.holdings symbol = some h)
    (hc : ¬ sh * pr > p.cash) :
    alookup (add_position p symbol sh pr date).portfolio.holdings symbol =
      some ⟨h.shares + sh, (h.total_cost + sh * pr) / (h.shares + sh),
        h.total_cost + sh * pr, h.first_purchase⟩ := by
  simp only [add_position, if_neg hc, hl]
  rw [alookup_aupdate_self, hl]
  rfl

theorem add_position_lookup_none (p : Portfolio) (symbol : String) (sh pr : ℚ)
    (date : String) (hl : alookup p.holdings symbol = none)
    (hc : ¬ sh * pr > p.cash) :
    alookup (add_position p symbol sh pr date).portfolio.holdings symbol =
      some ⟨sh, pr, sh * pr, date⟩ := by
  simp only [add_position, if_neg hc, hl]
  rw [alookup_append_right _ hl]
  simp [alookup]

theorem runBuys_lookup_some (symbol date : String) (fills : List (ℚ × ℚ)) :
    ∀ (p : Portfolio) (h : Holding),
      alookup p.holdings symbol = some h →
      0 < h.shares →
      h.avg_price = h.total_cost / h.shares →
      (∀ f ∈ fills, 0 < f.1 ∧ 0 < f.2) →
      alookup (runBuys symbol date p fills).1.holdings symbol =
        some ⟨h.shares + fillsShares (runBuys symbol date p fills).2,
          (h.total_cost + fillsCost (runBuys symbol date p fills).2) /
            (h.shares + fillsShares (runBuys symbol date p fills).2),
          h.total_cost + fillsCost (runBuys symbol date p fills).2,
          h.first_purchase⟩ := by
  induction fills with
  | nil =>
    intro p h hl hpos havg _
    simp only [runBuys, fillsShares, fillsCost, List.map_nil, List.sum_nil, add_zero]
    rw [hl]
    refine congrArg some ?_
    cases h with
    | mk s a t f => exact congrArg (fun x => Holding.mk s x t f) havg
  | cons f rest ih =>
    intro p h hl hpos havg hfs
    have hrest : ∀ g ∈ rest, 0 < g.1 ∧ 0 < g.2 :=
      fun g hg => hfs g (List.mem_cons_of_mem _ hg)
    by_cases hc : f.1 * f.2 > p.cash
    · have hfail : add_position p symbol f.1 f.2 date = ⟨p, false, false⟩ := by
        simp only [add_position, if_pos hc]
      simp only [runBuys, hfail]
      exact ih p h hl hpos havg hrest
    · have hsucc : (add_position p symbol f.1 f.2 date).success = true := by
        simp only [add_position, if_neg hc]
      have hl2 := add_position_lookup_some p symbol f.1 f.2 date h hl hc
      have hf1 : 0 < f.1 := (hfs f (List.mem_cons_self _ _)).1
      have ih2 := ih (add_position p symbol f.1 f.2 date).portfolio
        ⟨h.shares + f.1, (h.total_cost + f.1 * f.2) / (h.shares + f.1),
          h.total_cost + f.1 * f.2, h.first_purchase⟩ hl2 (add_pos hpos hf1) rfl hrest
      simp only [runBuys, hsucc, eq_self_iff_true, if_true]
      rw [ih2]
      simp only [fillsShares, fillsCost, List.map_cons, List.sum_cons]
      have he1 : h.shares + f.1 +
          (List.map Prod.fst (runBuys symbol date
            (add_position p symbol f.1 f.2 date).portfolio rest).2).sum =
          h.shares + (f.1 +
            (List.map Prod.fst (runBuys symbol date
              (add_position p symbol f.1 f.2 date).portfolio rest).2).sum) := by
        ring
      have he2 : h.total_cost + f.1 * f.2 +
          (List.map (fun f => f.1 * f.2) (runBuys symbol date
            (add_position p symbol f.1 f.2 date).portfolio rest).2).sum =
          h.total_cost + (f.1 * f.2 +
            (List.map (fun f => f.1 * f.2) (runBuys symbol date
              (add_position p symbol f.1 f.2 date).portfolio rest).2).sum) := by
        ring
      rw [he1, he2]

theorem runBuys_lookup_none (symbol date : String) (fills : List (ℚ × ℚ)) :
    ∀ p : Portfolio, alookup p.holdings symbol = none →
      (∀ f ∈ fills, 0 < f.1 ∧ 0 < f.2) →
      ((runBuys symbol date p fills).2 = [] ∧
        alookup (runBuys symbol date p fills).1.holdings symbol = none) ∨
      ((runBuys symbol date p fills).2 ≠ [] ∧
        alookup (runBuys symbol date p fills).1.holdings symbol =
          some ⟨fillsShares (runBuys symbol date p fills).2,
            fillsCost (runBuys symbol date p fills).2 /
              fillsShares (runBuys symbol date p fills).2,
            fillsCost (runBuys symbol date p fills).2, date⟩) := by
  induction fills with
  | nil =>
    intro p hl _
    exact Or.inl ⟨rfl, hl⟩
  | cons f rest ih =>
    intro p hl hfs
    have hrest : ∀ g ∈ rest, 0 < g.1 ∧ 0 < g.2 :=
      fun g hg => hfs g (List.mem_cons_of_mem _ hg)
    by_cases hc : f.1 * f.2 > p.cash
    · have hfail : add_position p symbol f.1 f.2 date = ⟨p, false, false⟩ := by
        simp only [add_position, if_pos hc]
      simp only [runBuys, hfail, Bool.false_eq_true, if_false]
      exact ih p hl hrest
    · have hsucc : (add_position p symbol f.1 f.2 date).success = true := by
        simp only [add_position, if_neg hc]
      have hf1 : 0 < f.1 := (hfs f (List.mem_cons_self _ _)).1
      have hl2 := add_position_lookup_none p symbol f.1 f.2 date hl hc
      have havg : ((⟨f.1, f.2, f.1 * f.2, date⟩ : Holding)).avg_price =
          (⟨f.1, f.2, f.1 * f.2, date⟩ : Holding).total_cost /
            (⟨f.1, f.2, f.1 * f.2, date⟩ : Holding).shares := by
        show f.2 = f.1 * f.2 / f.1
        rw [mul_comm, mul_div_assoc, div_self (ne_of_gt hf1), mul_one]
      have key := runBuys_lookup_some symbol date rest
        (add_position p symbol f.1 f.2 date).portfolio ⟨f.1, f.2, f.1 * f.2, date⟩
        hl2 hf1 havg hrest
      refine Or.inr ⟨?_, ?_⟩
      · simp only [runBuys, hsucc, eq_self_iff_true, if_true]
        exact List.cons_ne_nil _ _
      · simp only [runBuys, hsucc, eq_self_iff_true, if_true]
        rw [key]
        simp only [fillsShares, fillsCost, List.map_cons, List.sum_cons]

/-- C2 (amended): for any sequence of `add_position` / `remove_position`
calls with positive shares and prices, cash stays non-negative and every
holding's share count stays non-negative; for buys on a symbol with no prior
position, `avg_price` equals the shares-weighted average of the accepted buy
fills (`total cost / total shares`); and a `remove_position` call never
changes a surviving holding's `avg_price`. (The original claim — that
`avg_price` always equals the weighted average of all buy fills even across
interleaved sells — is refuted by `avg_price_not_buy_fill_average`.) -/
theorem ledger_invariants :
    (∀ (now : String) (ops : List LedgerOp), (∀ op ∈ ops, posOp op) →
      0 ≤ (applyOps (initialPortfolio now) ops).cash ∧
      ∀ x ∈ (applyOps (initialPortfolio now) ops).holdings, 0 ≤ x.2.shares) ∧
    (∀ (p : Portfolio) (symbol date : String) (fills : List (ℚ × ℚ)),
      alookup p.holdings symbol = none →
      (∀ f ∈ fills, 0 < f.1 ∧ 0 < f.2) →
      (runBuys symbol date p fills).2 ≠ [] →
      alookup (runBuys symbol date p fills).1.holdings symbol =
        some ⟨fillsShares (runBuys symbol date p fills).2,
          fillsCost (runBuys symbol date p fills).2 /
            fillsShares (runBuys symbol date p fills).2,
          fillsCost (runBuys symbol date p fills).2, date⟩) ∧
    (∀ (p : Portfolio) (symbol : String) (sh pr : ℚ) (d : String) (h h2 : Holding),
      (p.holdings.map Prod.fst).Nodup →
      alookup p.holdings symbol = some h →
      alookup (remove_position p symbol sh pr d).portfolio.holdings symbol = some h2 →
      h2.avg_price = h.avg_price) := by
  refine ⟨?_, ?_, ?_⟩
  · intro now ops hpos
    have hg0 : GoodLedger (initialPortfolio now) := by
      constructor
      · norm_num [initialPortfolio]
      · intro x hx
        simp [initialPortfolio] at hx
    have hg := goodLedger_applyOps ops (initialPortfolio now) hg0 hpos
    exact ⟨hg.1, fun x hx => le_of_lt (hg.2 x hx)⟩
  · intro p symbol date fills hl hfs hne
    rcases runBuys_lookup_none symbol date fills p hl hfs with ⟨he, _⟩ | ⟨_, hres⟩
    · exact absurd he hne
    · exact hres
  · intro p symbol sh pr d h h2 hnd hl hl2
    by_cases hgt : h.shares < sh
    · have hred : remove_position p symbol sh pr d = ⟨p, false, false⟩ := by
        simp only [remove_position, hl, if_pos hgt]
      rw [hred] at hl2
      rw [hl] at hl2
      injection hl2 with he
      rw [← he]
    · have hred : (remove_position p symbol sh pr d).portfolio.holdings =
          (if h.shares - sh = 0 then aerase p.holdings symbol
           else
             aupdate p.holdings symbol
               { h with shares := h.shares - sh
                        total_cost := h.total_cost - h.avg_price * sh }) := by
        simp only [remove_position, hl, if_neg hgt]
      rw [hred] at hl2
      by_cases hz : h.shares - sh = 0
      · rw [if_pos hz, alookup_aerase_self _ _ hnd] at hl2
        exact absurd hl2 (by simp)
      · rw [if_neg hz, alookup_aupdate_self, hl] at hl2
        injection hl2 with he
        rw [← he]

/-- Witness for C2 at concrete inputs: one accepted buy keeps cash
non-negative, and two accepted buys of 2 shares at 10 and 2 shares at 30
yield `avg_price` 20, the shares-weighted average of the fills. -/
theorem ledger_invariants_witness :
    0 ≤ (applyOps (initialPortfolio "t") [LedgerOp.buy "A" 4 25 "d"]).cash ∧
    alookup (runBuys "B" "d" (initialPortfolio "t") [(2, 10), (2, 30)]).1.holdings "B" =
      some ⟨fillsShares (runBuys "B" "d" (initialPortfolio "t") [(2, 10), (2, 30)]).2,
        fillsCost (runBuys "B" "d" (initialPortfolio "t") [(2, 10), (2, 30)]).2 /
          fillsShares (runBuys "B" "d" (initialPortfolio "t") [(2, 10), (2, 30)]).2,
        fillsCost (runBuys "B" "d" (initialPortfolio "t") [(2, 10), (2, 30)]).2, "d"⟩ := by
  constructor
  · refine (ledger_invariants.1 "t" [LedgerOp.buy "A" 4 25 "d"] ?_).1
    intro op hop
    rw [List.mem_singleton.mp hop]
    exact ⟨by norm_num, by norm_num⟩
  · refine ledger_invariants.2.1 (initialPortfolio "t") "B" "d" [(2, 10), (2, 30)] rfl ?_
      (by
        norm_num [runBuys, add_position, alookup, aupdate, initialPortfolio]
        exact List.cons_ne_nil _ _)
    intro f hf
    rcases List.mem_cons.mp hf with he | he
    · rw [he]; exact ⟨by norm_num, by norm_num⟩
    · rw [List.mem_singleton.mp he]; exact ⟨by norm_num, by norm_num⟩

/-- C2 counterexample: starting from the initial ledger, buy 10 shares of `A`
at 100, sell 5 at 100, then buy 5 at 200. The stored `avg_price` is 150,
while the shares-weighted average of the two buy fills is 2000/15, so the
claimed characterisation of `avg_price` fails once a sell intervenes. -/
theorem avg_price_not_buy_fill_average :
    (alookup (applyOps (initialPortfolio "t0")
        [LedgerOp.buy "A" 10 100 "d1", LedgerOp.sell "A" 5 100 "d2",
         LedgerOp.buy "A" 5 200 "d3"]).holdings "A").map Holding.avg_price =
      some 150 ∧
    (10 * 100 + 5 * 200 : ℚ) / (10 + 5) ≠ 150 := by
  constructor
  · norm_num [applyOps, applyOp, add_position, remove_position, alookup, aupdate, aerase,
      initialPortfolio]
  · norm_num

theorem alookup_append_singleton_ne {α : Type} (m : List (String × α)) (k t : String)
    (a : α) (h : t ≠ k) : alookup (m ++ [(k, a)]) t = alookup m t := by
  cases hm : alookup m t with
  | some v => exact alookup_append_left _ hm
  | none =>
    rw [alookup_append_right _ hm]
    simp [alookup, Ne.symm h]

theorem sync_fold_holdings (L : List (String × AggHolding)) :
    ∀ q : Portfolio, (L.map Prod.fst).Nodup →
      (∀ kv ∈ L, alookup q.holdings kv.1 = none) →
      (L.foldl (fun acc kv => set_holding acc kv.1 kv.2.shares kv.2.avg_price) q) =
        { q with holdings := q.holdings ++
            L.map (fun kv =>
              (kv.1, (⟨kv.2.shares, kv.2.avg_price, kv.2.shares * kv.2.avg_price, ""⟩ :
                Holding))) } := by
  induction L with
  | nil =>
    intro q _ _
    simp
  | cons kv rest ih =>
    intro q hnd habs
    simp only [List.map_cons, List.nodup_cons] at hnd
    have hq : alookup q.holdings kv.1 = none := habs kv (List.mem_cons_self _ _)
    have hstep : set_holding q kv.1 kv.2.shares kv.2.avg_price =
        { q with holdings := q.holdings ++
            [(kv.1, ⟨kv.2.shares, kv.2.avg_price, kv.2.shares * kv.2.avg_price, ""⟩)] } := by
      simp only [set_holding, hq]
    rw [List.foldl_cons, hstep]
    rw [ih _ hnd.2 ?_]
    · simp
    · intro kv2 hkv2
      have hne : kv2.1 ≠ kv.1 := by
        intro he
        exact hnd.1 (he ▸ List.mem_map_of_mem Prod.fst hkv2)
      simp only
      rw [alookup_append_singleton_ne _ _ _ _ hne]
      exact habs kv2 (List.mem_cons_of_mem _ hkv2)

theorem alookup_map_entry {α β : Type} (g : α → β) (L : List (String × α)) (sym : String) :
    alookup (L.map fun kv => (kv.1, g kv.2)) sym = (alookup L sym).map g := by
  induction L with
  | nil => rfl
  | cons kv rest ih =>
    by_cases hk : kv.1 = sym <;> simp [alookup, hk, ih]

/-- C1: `sync_to_portfolio_manager` fully replaces the ledger's cash and
holdings with the broker snapshot — the synced cash is the snapshot's cash,
the transaction log is untouched, every symbol absent from the snapshot is
gone and every snapshot symbol is present with the snapshot's shares and
average price. -/
theorem sync_full_replacement (p : Portfolio) (snap : BrokerSnapshot)
    (hnd : (snap.holdings.map Prod.fst).Nodup) :
    (sync_to_portfolio_manager p snap).cash = snap.cash ∧
    (sync_to_portfolio_manager p snap).transactions = p.transactions ∧
    ∀ sym, alookup (sync_to_portfolio_manager p snap).holdings sym =
      (alookup snap.holdings sym).map
        (fun d => ⟨d.shares, d.avg_price, d.shares * d.avg_price, ""⟩) := by
  have habs : ∀ kv ∈ snap.holdings,
      alookup (set_cash (clear_holdings p) snap.cash).holdings kv.1 = none :=
    fun kv _ => rfl
  have hfold := sync_fold_holdings snap.holdings
    (set_cash (clear_holdings p) snap.cash) hnd habs
  unfold sync_to_portfolio_manager
  rw [hfold]
  refine ⟨rfl, rfl, ?_⟩
  intro sym
  show alookup (([] : List (String × Holding)) ++ _) sym = _
  rw [List.nil_append]
  exact alookup_map_entry
    (fun d => (⟨d.shares, d.avg_price, d.shares * d.avg_price, ""⟩ : Holding))
    snap.holdings sym

/-- Witness for C1 at the spec's example: a ledger holding AAPL 10 synced
against a snapshot reporting only MSFT 5 ends with exactly MSFT 5, the
snapshot's cash, and its transaction log untouched. -/
theorem sync_full_replacement_witness :
    alookup (sync_to_portfolio_manager ⟨1000, [("AAPL", ⟨10, 100, 1000, "d"⟩)], [], "t"⟩
      ⟨[("MSFT", ⟨"Microsoft", 5, 50, 250⟩)], 777⟩).holdings "MSFT" =
      some ⟨5, 50, 250, ""⟩ ∧
    alookup (sync_to_portfolio_manager ⟨1000, [("AAPL", ⟨10, 100, 1000, "d"⟩)], [], "t"⟩
      ⟨[("MSFT", ⟨"Microsoft", 5, 50, 250⟩)], 777⟩).holdings "AAPL" = none ∧
    (sync_to_portfolio_manager ⟨1000, [("AAPL", ⟨10, 100, 1000, "d"⟩)], [], "t"⟩
      ⟨[("MSFT", ⟨"Microsoft", 5, 50, 250⟩)], 777⟩).transactions = [] ∧
    (sync_to_portfolio_manager ⟨1000, [("AAPL", ⟨10, 100, 1000, "d"⟩)], [], "t"⟩
      ⟨[("MSFT", ⟨"Microsoft", 5, 50, 250⟩)], 777⟩).cash = 777 := by
  have h := sync_full_replacement ⟨1000, [("AAPL", ⟨10, 100, 1000, "d"⟩)], [], "t"⟩
    ⟨[("MSFT", ⟨"Microsoft", 5, 50, 250⟩)], 777⟩ (by decide)
  refine ⟨?_, ?_, h.2.1, h.1⟩
  · rw [h.2.2 "MSFT"]
    norm_num [alookup]
  · rw [h.2.2 "AAPL"]
    decide

theorem stepItem_lookup_ne (acc : List (String × AggHolding)) (it : SegmentItem)
    (t : String) (h : t ≠ it.symbol) :
    alookup (stepItem acc it) t = alookup acc t := by
  unfold stepItem
  split
  · split
    next heq => exact alookup_append_singleton_ne _ _ _ _ h
    next h2 heq => exact alookup_aupdate_ne _ _ _ _ h
  · rfl

theorem foldl_stepItem_lookup (items : List SegmentItem) :
    ∀ (acc : List (String × AggHolding)) (sym : String),
      alookup (items.foldl stepItem acc) sym =
        mergeInto (alookup acc sym) (relevantItems sym items) := by
  induction items with
  | nil =>
    intro acc sym
    show alookup acc sym = mergeInto (alookup acc sym) (relevantItems sym [])
    cases alookup acc sym <;> rfl
  | cons it rest ih =>
    intro acc sym
    rw [List.foldl_cons, ih]
    by_cases hsh : 0 < it.shares
    · by_cases hsym : it.symbol = sym
      · have hrel : relevantItems sym (it :: rest) = it :: relevantItems sym rest := by
          simp [relevantItems, List.filter_cons, hsym, hsh]
        rw [hrel]
        subst hsym
        cases hl : alookup acc it.symbol with
        | none =>
          have hstep : stepItem acc it =
              acc ++ [(it.symbol, ⟨it.name, it.shares, it.avg_price, it.value⟩)] := by
            simp only [stepItem, if_pos hsh, hl]
          rw [hstep, alookup_append_right _ hl]
          simp only [alookup, if_pos rfl]
          rfl
        | some h =>
          have hstep : stepItem acc it = aupdate acc it.symbol
              ⟨h.name, h.shares + it.shares, it.avg_price, h.current_value + it.value⟩ := by
            simp only [stepItem, if_pos hsh, hl]
          rw [hstep, alookup_aupdate_self, hl]
          rfl
      · have hrel : relevantItems sym (it :: rest) = relevantItems sym rest := by
          simp [relevantItems, List.filter_cons, hsym]
        rw [hrel, stepItem_lookup_ne _ _ _ (fun he => hsym he.symm)]
    · have hrel : relevantItems sym (it :: rest) = relevantItems sym rest := by
        simp [relevantItems, List.filter_cons, hsh]
      have hstep : stepItem acc it = acc := by
        simp only [stepItem, if_neg hsh]
      rw [hrel, hstep]

theorem mergeInto_some (rest : List SegmentItem) :
    ∀ h : AggHolding, mergeInto (some h) rest =
      some ⟨h.name, h.shares + (rest.map SegmentItem.shares).sum,
        ((rest.getLast?).map SegmentItem.avg_price).getD h.avg_price,
        h.current_value + (rest.map SegmentItem.value).sum⟩ := by
  induction rest with
  | nil =>
    intro h
    show some h = some ⟨h.name, h.shares + ([] : List ℚ).sum, h.avg_price,
      h.current_value + ([] : List ℚ).sum⟩
    refine congrArg some ?_
    exact congrArg₂ (fun a b => AggHolding.mk h.name a h.avg_price b)
      (by simp) (by simp)
  | cons it rest ih =>
    intro h
    rw [mergeInto, ih]
    refine congrArg some ?_
    cases rest with
    | nil =>
      exact congrArg₂ (fun a b => AggHolding.mk h.name a it.avg_price b)
        (by simp only [List.map_cons, List.map_nil, List.sum_cons]; ring)
        (by simp only [List.map_cons, List.map_nil, List.sum_cons]; ring)
    | cons it2 rest2 =>
      exact congrArg₂ (fun a b => AggHolding.mk h.name a
          ((((it2 :: rest2).getLast?).map SegmentItem.avg_price).getD it2.avg_price) b)
        (by simp only [List.map_cons, List.sum_cons]; ring)
        (by simp only [List.map_cons, List.sum_cons]; ring)

theorem parse_eq_foldl (segs : List SegmentResult) :
    ∀ acc, segs.foldl
        (fun acc seg =>
          match seg with
          | .failure => acc
          | .items xs => xs.foldl stepItem acc) acc =
      (segs.flatMap segItems).foldl stepItem acc := by
  induction segs with
  | nil => intro acc; rfl
  | cons seg rest ih =>
    intro acc
    rw [List.flatMap_cons, List.foldl_append, List.foldl_cons, ih]
    cases seg <;> rfl

theorem mergeInto_none_eq (rel : List SegmentItem) :
    mergeInto none rel =
      match rel with
      | [] => none
      | it :: rest =>
        some ⟨it.name, ((it :: rest).map SegmentItem.shares).sum,
          ((rest.getLast?).map SegmentItem.avg_price).getD it.avg_price,
          ((it :: rest).map SegmentItem.value).sum⟩ := by
  cases rel with
  | nil => rfl
  | cons it rest =>
    show mergeInto (some ⟨it.name, it.shares, it.avg_price, it.value⟩) rest = _
    rw [mergeInto_some]
    refine congrArg some ?_
    exact congrArg₂
      (fun a b => AggHolding.mk it.name a
        (((rest.getLast?).map SegmentItem.avg_price).getD it.avg_price) b)
      (by simp only [List.map_cons, List.sum_cons])
      (by simp only [List.map_cons, List.sum_cons])

/-- C9 (amended): aggregating the per-segment position lists merges an
instrument that appears in several segments by summing its share counts and
its market values while taking the most recently observed average-cost field,
and a symbol reported by no segment (with positive shares) is absent from the
result rather than present with zero shares. (The original claim that the
value field is last-observed-wins is refuted by
`parse_portfolio_value_not_last_observed`.) -/
theorem parse_portfolio_merge_policy (segs : List SegmentResult) (sym : String) :
    alookup (parse_portfolio_holdings segs) sym =
      specMerge sym (segs.flatMap segItems) ∧
    (relevantItems sym (segs.flatMap segItems) = [] →
      alookup (parse_portfolio_holdings segs) sym = none) := by
  have h1 : alookup (parse_portfolio_holdings segs) sym =
      mergeInto none (relevantItems sym (segs.flatMap segItems)) := by
    unfold parse_portfolio_holdings
    rw [parse_eq_foldl segs [], foldl_stepItem_lookup]
    rfl
  refine ⟨?_, ?_⟩
  · rw [h1, mergeInto_none_eq]
    rfl
  · intro hrel
    rw [h1, hrel]
    rfl

/-- C9 counterexample: the same instrument reported by two segments with
market values 10 and 20 ends with `current_value` 30 (the sum), not the most
recently observed 20, so the value field is summed rather than
last-observed-wins. -/
theorem parse_portfolio_value_not_last_observed :
    alookup (parse_portfolio_holdings
      [SegmentResult.items [⟨"X", "XCorp", 1, 100, 10⟩],
       SegmentResult.items [⟨"X", "XCorp", 2, 110, 20⟩]]) "X" =
      some ⟨"XCorp", 3, 110, 30⟩ ∧ (30 : ℚ) ≠ 20 := by
  constructor
  · norm_num [parse_portfolio_holdings, stepItem, alookup, aupdate]
  · norm_num

/-- C3: `valid` is false exactly when the hard-issue list is non-empty; only
the order-size ceiling, the buy cash check and the sell holdings checks ever
produce hard issues, while the minimum-cash-reserve and concentration checks
produce only warnings; and on the spec's example — a $5,000 buy into a
$10,000-total-value account against the 30% concentration ceiling (with
sufficient cash) — the result is the concentration warning with
`valid = true`. -/
theorem validate_order_spec :
    (∀ (p : Portfolio) (current : CurrentValue) (symbol : String)
       (quantity price : ℚ) (side : Side),
      ((validate_order p current symbol quantity price side).valid = false ↔
        (validate_order p current symbol quantity price side).issues ≠ []) ∧
      (∀ m ∈ (validate_order p current symbol quantity price side).issues,
        m = Msg.orderValueOverMax ∨ m = Msg.insufficientCash ∨
        m = Msg.notHeld ∨ m = Msg.insufficientShares) ∧
      (∀ m ∈ (validate_order p current symbol quantity price side).warnings,
        m = Msg.minCashReserveBreach ∨ m = Msg.concentrationOverMax)) ∧
    validate_order (initialPortfolio "t") ⟨6000, [⟨"Y", 4000⟩], 10000⟩ "X" 50 100
        Side.buyOrder =
      ⟨true, [], [Msg.concentrationOverMax], 5000⟩ := by
  constructor
  · intro p current symbol quantity price side
    cases side with
    | buyOrder =>
      refine ⟨?_, ?_, ?_⟩
      · simp only [validate_order]
        constructor
        · intro hv
          intro hnil
          rw [hnil] at hv
          simp at hv
        · intro hne
          simpa using hne
      · intro m hm
        simp only [validate_order] at hm
        rcases List.mem_append.mp hm with h1 | h1
        · split at h1
          · rw [List.mem_singleton.mp h1]; exact Or.inl rfl
          · simp at h1
        · split at h1
          · rw [List.mem_singleton.mp h1]; exact Or.inr (Or.inl rfl)
          · simp at h1
      · intro m hm
        simp only [validate_order] at hm
        rcases List.mem_append.mp hm with h1 | h1
        · split at h1
          · rw [List.mem_singleton.mp h1]; exact Or.inl rfl
          · simp at h1
        · split at h1
          · rw [List.mem_singleton.mp h1]; exact Or.inr rfl
          · simp at h1
    | sellOrder =>
      refine ⟨?_, ?_, ?_⟩
      · simp only [validate_order]
        constructor
        · intro hv hnil
          rw [hnil] at hv
          simp at hv
        · intro hne
          simpa using hne
      · intro m hm
        simp only [validate_order] at hm
        rcases List.mem_append.mp hm with h1 | h1
        · split at h1
          · rw [List.mem_singleton.mp h1]; exact Or.inl rfl
          · simp at h1
        · split at h1
          · rw [List.mem_singleton.mp h1]; exact Or.inr (Or.inr (Or.inl rfl))
          · split at h1
            · rw [List.mem_singleton.mp h1]; exact Or.inr (Or.inr (Or.inr rfl))
            · simp at h1
      · intro m hm
        simp only [validate_order] at hm
        simp at hm
  · have hfilter : List.filter (fun h => h.symbol == "X")
        [(⟨"Y", 4000⟩ : SnapHolding)] = [] := rfl
    norm_num [validate_order, max_order_value, max_position_pct, min_cash_reserve, hfilter]

theorem pyInt_truncation_example : pyInt ((50000 : ℚ) / 16667) = 2 := by
  unfold pyInt
  rw [if_pos (by norm_num)]
  rw [show ((50000 : ℚ) / 16667) = 2 + 16666 / 16667 by norm_num]
  rw [Int.floor_eq_iff]
  norm_num

/-- C8 counterexample: resolving the single intent
`{symbol: "X", target_amount: 1000}` at price 333.34 yields quantity 2
(`int(1000 / 333.34) = int(2.9999…) = 2`), not the claimed 3. -/
theorem resolve_buy_quantities_not_three :
    (calculate_buy_quantities [⟨"X", 1000, ""⟩] [("X", 33334 / 100)]).map
      ResolvedBuy.quantity = [2] ∧ (2 : ℤ) ≠ 3 := by
  constructor
  · norm_num [calculate_buy_quantities, alookup, pyInt_truncation_example]
  · norm_num

/-- C8 (amended): resolving `{symbol: "X", target_amount: 1000}` at price
333.34 yields quantity 2 and `total_cost = 2 × 333.34 = 666.68`, per the
floor semantics `quantity = int(target_amount / price)` (the division is
2.9999…, which floors to 2, not 3). -/
theorem resolve_buy_quantities_floor_example :
    calculate_buy_quantities [⟨"X", 1000, ""⟩] [("X", 33334 / 100)] =
      [⟨"X", 2, 33334 / 100, 66668 / 100, ""⟩] ∧
    pyInt (1000 / (33334 / 100 : ℚ)) = 2 := by
  have hq : pyInt (1000 / (33334 / 100 : ℚ)) = 2 := by
    rw [show (1000 / (33334 / 100 : ℚ)) = 50000 / 16667 by norm_num]
    exact pyInt_truncation_example
  refine ⟨?_, hq⟩
  norm_num [calculate_buy_quantities, alookup, pyInt_truncation_example]

theorem foldl_sellStep_trace (o : Side → String → ℤ → ExecResult)
    (sells : List PendingSell) :
    ∀ st, (sells.foldl (sellStep o) st).2 =
      st.2 ++ sells.map (fun s => (Side.sellOrder, s.symbol)) := by
  induction sells with
  | nil => intro st; simp
  | cons s rest ih =>
    intro st
    rw [List.foldl_cons, ih]
    cases h : o .sellOrder s.symbol (pyInt s.quantity) with
    | success price => simp [sellStep, h]
    | failure err => simp [sellStep, h]

theorem foldl_buyStep_trace (o : Side → String → ℤ → ExecResult)
    (buys : List ResolvedBuy) :
    ∀ st, (buys.foldl (buyStep o) st).2 =
      st.2 ++ buys.map (fun b => (Side.buyOrder, b.symbol)) := by
  induction buys with
  | nil => intro st; simp
  | cons b rest ih =>
    intro st
    rw [List.foldl_cons, ih]
    cases h : o .buyOrder b.symbol b.quantity with
    | success price => simp [buyStep, h]
    | failure err => simp [buyStep, h]

theorem foldl_sellStep_count (o : Side → String → ℤ → ExecResult)
    (sells : List PendingSell) :
    ∀ st, numRecords (sells.foldl (sellStep o) st).1 =
      numRecords st.1 + sells.length := by
  induction sells with
  | nil => intro st; simp
  | cons s rest ih =>
    intro st
    rw [List.foldl_cons, ih]
    cases h : o .sellOrder s.symbol (pyInt s.quantity) with
    | success price => simp [sellStep, h, numRecords]; omega
    | failure err => simp [sellStep, h, numRecords]; omega

theorem foldl_buyStep_count (o : Side → String → ℤ → ExecResult)
    (buys : List ResolvedBuy) :
    ∀ st, numRecords (buys.foldl (buyStep o) st).1 =
      numRecords st.1 + buys.length := by
  induction buys with
  | nil => intro st; simp
  | cons b rest ih =>
    intro st
    rw [List.foldl_cons, ih]
    cases h : o .buyOrder b.symbol b.quantity with
    | success price => simp [buyStep, h, numRecords]; omega
    | failure err => simp [buyStep, h, numRecords]; omega

/-- C4: the batch execution of `confirm_all_cmd` attempts every sell before
any buy is submitted and attempts every order exactly once regardless of
earlier failures (the chronological attempt list is exactly the sells
followed by the buys); the report accounts for each order once, as a success
record or an error entry; and on a batch of 2 sells + 2 buys whose first sell
fails, the other three orders are still attempted and the report shows 3
successes and 1 failure. -/
theorem confirm_all_spec :
    (∀ (oracle : Side → String → ℤ → ExecResult) (sells : List PendingSell)
       (buys : List ResolvedBuy),
      (confirm_all oracle sells buys).2 =
        sells.map (fun s => (Side.sellOrder, s.symbol)) ++
          buys.map (fun b => (Side.buyOrder, b.symbol)) ∧
      (confirm_all oracle sells buys).1.sells.length +
          (confirm_all oracle sells buys).1.buys.length +
          (confirm_all oracle sells buys).1.errors.length =
        sells.length + buys.length) ∧
    confirm_all exampleOracle [⟨"S1", 1, ""⟩, ⟨"S2", 2, ""⟩]
        [⟨"B1", 1, 10, 10, ""⟩, ⟨"B2", 2, 10, 20, ""⟩] =
      (⟨[⟨"S2", 2, 10⟩], [⟨"B1", 1, 10⟩, ⟨"B2", 2, 10⟩], [("S1", "rejected")]⟩,
       [(Side.sellOrder, "S1"), (Side.sellOrder, "S2"),
        (Side.buyOrder, "B1"), (Side.buyOrder, "B2")]) := by
  constructor
  · intro oracle sells buys
    constructor
    · unfold confirm_all
      rw [foldl_buyStep_trace, foldl_sellStep_trace]
      simp
    · have h1 := foldl_buyStep_count oracle buys
        (sells.foldl (sellStep oracle) (⟨[], [], []⟩, []))
      have h2 := foldl_sellStep_count oracle sells (⟨[], [], []⟩, [])
      show numRecords (confirm_all oracle sells buys).1 = sells.length + buys.length
      unfold confirm_all
      rw [h1, h2]
      simp [numRecords]
  · decide

theorem holdingOfJson_toJson (h : Holding) : holdingOfJson (holdingToJson h) = some h :=
  rfl

theorem holdingsOfJson_map (L : List (String × Holding)) :
    holdingsOfJson (L.map fun kv => (kv.1, holdingToJson kv.2)) = some L := by
  induction L with
  | nil => rfl
  | cons kv rest ih =>
    obtain ⟨k, h⟩ := kv
    show holdingsOfJson ((k, holdingToJson h) :: _) = _
    rw [holdingsOfJson, holdingOfJson_toJson, ih]

theorem transactionOfJson_toJson (t : Transaction) :
    transactionOfJson (transactionToJson t) = some t := by
  cases t <;> rfl

theorem transactionsOfJson_map (L : List Transaction) :
    transactionsOfJson (L.map transactionToJson) = some L := by
  induction L with
  | nil => rfl
  | cons t rest ih =>
    show transactionsOfJson (transactionToJson t :: _) = _
    rw [transactionsOfJson, transactionOfJson_toJson, ih]

/-- C6: persisting any ledger state and loading it back reconstructs an
identical ledger — `_load_portfolio` returns the saved document unchanged and
decoding it recovers exactly the cash, the holdings map with fields
`{shares, avg_price, total_cost, first_purchase}`, the ordered transaction
list and `created_at`. -/
theorem save_load_roundtrip (p : Portfolio) (now : String) :
    load_portfolio now (StoreState.parsed (portfolioToJson p)) =
      Except.ok (portfolioToJson p) ∧
    portfolioOfJson (portfolioToJson p) = some p := by
  refine ⟨rfl, ?_⟩
  show (match holdingsOfJson (p.holdings.map fun kv => (kv.1, holdingToJson kv.2)),
          transactionsOfJson (p.transactions.map transactionToJson) with
        | some holdings, some txs =>
          some (⟨p.cash, holdings, txs, p.created_at⟩ : Portfolio)
        | _, _ => none) = some p
  rw [holdingsOfJson_map, transactionsOfJson_map]

/-- C7 counterexample: a store whose content is not valid JSON makes
`_load_portfolio` propagate the JSON decode error to the caller instead of
returning the initial ledger state. -/
theorem load_portfolio_corrupted_raises :
    load_portfolio "t" StoreState.corrupted = Except.error LoadError.jsonDecodeError ∧
    ∀ j, load_portfolio "t" StoreState.corrupted ≠ Except.ok j :=
  ⟨rfl, fun _ h => Except.noConfusion h⟩

/-- C7 (amended): only a missing store file is handled — `_load_portfolio`
then returns the initial ledger (cash 100000, no holdings, no transactions);
an unreadable store propagates the I/O error, corrupted content propagates
the JSON decode error, and well-formed content is returned as parsed. -/
theorem load_portfolio_fallback (now : String) :
    load_portfolio now StoreState.missing =
      Except.ok (portfolioToJson (initialPortfolio now)) ∧
    load_portfolio now StoreState.unreadable = Except.error LoadError.ioError ∧
    load_portfolio now StoreState.corrupted = Except.error LoadError.jsonDecodeError ∧
    ∀ j, load_portfolio now (StoreState.parsed j) = Except.ok j :=
  ⟨rfl, rfl, rfl, fun _ => rfl⟩

end AIChatApp
